import Mathlib

/-!
# Verification of the PDF ingestion pipeline (`embed.py`)

A shallow embedding of the batch ingestion tool: per-page text extraction,
embedding generation, and batched durable commits into an SQLite table.

Modelling conventions:

* External collaborators are parameters: PyMuPDF's `fitz.open` becomes a
  function `fitzOpen : String → Except String (List String)` returning the
  pages' raw texts in page order (or a parse failure), and the sentence
  transformer's `model.encode` becomes
  `encode : String → Except String (List Rat)` (or an inference failure).
  Vector components are modelled as rationals; "up to floating-point
  round-trip precision" is absorbed by this choice.
* The SQLite connection is a pair of row lists: `committed` (durable) and
  `pending` (inserted in the open transaction, not yet durable).
  `INSERT` appends to `pending`; `conn.commit()` moves `pending` to
  `committed`.  SQLite's `INTEGER PRIMARY KEY` auto-assignment is modelled
  as its documented behaviour: one more than the largest id in use.
* The database file on disk is `Option DBFile` (`none` = file absent), and a
  `DBFile` holds `Option (List Record)` (`none` = `Documents` table absent).
  `sqlite3.connect` creates the file if absent; `CREATE TABLE IF NOT EXISTS`
  creates the table only when absent, preserving existing rows.
* `json.dumps` applied to the embedding list produces a JSON array-of-numbers
  literal, modelled as a `Json` syntax tree; `loads` is JSON parsing of such
  a literal back to a number list.
* Console prints, embedding invocations, commits and the connection close are
  recorded as an `Event` trace, in execution order.
* Exceptions propagate: a failing stage aborts the run.  A result carries the
  connection state at the moment of the crash (its `committed` part is what
  is durable on disk).
-/

namespace PdfEmbed

/-- A JSON value, as far as this program needs them: the serialized form of an
embedding is a JSON array-of-numbers literal. -/
inductive Json where
  | num (q : Rat)
  | arr (elems : List Json)

/-- `json.dumps(embedding_list)`: the embedding vector serialized as a JSON
array-of-numbers literal. -/
def dumps (v : List Rat) : Json :=
  Json.arr (v.map Json.num)

/-- Reads the elements of a JSON array as numbers, failing on any
non-number element. -/
def loadsElems : List Json → Option (List Rat)
  | [] => some []
  | Json.num q :: rest => (loadsElems rest).map (fun l => q :: l)
  | Json.arr _ :: _ => none

/-- `json.loads` on a value expected to be an array-of-numbers literal:
deserializes back to the number list, or fails on any other shape. -/
def loads : Json → Option (List Rat)
  | Json.arr elems => loadsElems elems
  | Json.num _ => none

/-- One row of the `Documents` table. -/
structure Record where
  id : Nat
  filename : String
  page : Nat
  text : String
  embedding : Json

/-- SQLite's auto-assignment for an omitted `INTEGER PRIMARY KEY`: one more
than the largest id currently in the table (so `1` on an empty table). -/
def nextId (rows : List Record) : Nat :=
  (rows.map Record.id).foldr Nat.max 0 + 1

/-- An open SQLite connection: durable rows plus the rows inserted in the
still-open transaction. -/
structure Conn where
  committed : List Record
  pending : List Record

/-- The rows visible through the connection (durable and uncommitted). -/
def tableRows (c : Conn) : List Record :=
  c.committed ++ c.pending

/-- `cur.execute("INSERT INTO Documents (filename, page, text, embedding) VALUES (?,?,?,?)", ...)`:
buffers one row, id auto-assigned, in the open transaction. -/
def appendRecord (c : Conn) (filename : String) (page : Nat) (text : String)
    (embedding : Json) : Conn :=
  { c with pending := c.pending ++
      [{ id := nextId (tableRows c), filename := filename, page := page,
         text := text, embedding := embedding }] }

/-- `conn.commit()`: the open transaction's rows become durable. -/
def commitConn (c : Conn) : Conn :=
  { committed := c.committed ++ c.pending, pending := [] }

/-- The database file's content: the `Documents` table, when it exists. -/
structure DBFile where
  documents : Option (List Record)

/-- `sqlite3.connect(db_path)`: opens the file, creating an empty database
when the file does not exist. -/
def connect (disk : Option DBFile) : DBFile :=
  disk.getD { documents := none }

/-- `CREATE TABLE IF NOT EXISTS Documents (...)`: creates the table only when
it is absent; existing rows are untouched. -/
def createTableIfNotExists (db : DBFile) : DBFile :=
  { documents := some (db.documents.getD []) }

/-- `init_db(db_path)`: connect, ensure the table exists, commit; returns the
open connection (no pending rows). -/
def init_db (disk : Option DBFile) : Conn :=
  { committed := (createTableIfNotExists (connect disk)).documents.getD [],
    pending := [] }

/-- The effect of `init_db` on the database file itself (the connect that
creates a missing file, and the committed `CREATE TABLE IF NOT EXISTS`). -/
def initDisk (disk : Option DBFile) : Option DBFile :=
  some (createTableIfNotExists (connect disk))

/-- Python's `str.strip()`: drops leading and trailing whitespace.  Defined
on the string's character list by structural recursion, so that it is
kernel-computable. -/
def strip (s : String) : String :=
  String.mk
    (((s.data.dropWhile Char.isWhitespace).reverse.dropWhile
        Char.isWhitespace).reverse)

/-- `Path(pdf_path).name`: the base name, i.e. the part after the last
path separator. -/
def baseName (p : String) : String :=
  String.mk (p.data.foldl (fun acc c => if c = '/' then [] else acc ++ [c]) [])

/-- One observable step of the run: a console line, an embedding-model
invocation, a transaction commit, or the connection close. -/
inductive Event where
  | printUsage
  | printNotExist (path : String)
  | printLoadingModel
  | printModelLoaded
  | printProcessingPdf (filename : String) (numPages : Nat)
  | printSkip (page : Nat)
  | printProcessingPage (page : Nat) (numPages : Nat)
  | embed (page : Nat)
  | commitEvent
  | printCommitted (page : Nat)
  | printFinished (filename : String)
  | closed
  | printSaved
deriving DecidableEq

/-- Result of a (possibly crashing) stretch of the pipeline: the connection
state, and the events that happened, in order.  `err` is a propagating
exception; the connection at that moment is carried along (only its
`committed` rows are durable). -/
inductive RunResult where
  | ok (conn : Conn) (events : List Event)
  | err (msg : String) (conn : Conn) (events : List Event)

/-- Events of a run result. -/
def RunResult.events : RunResult → List Event
  | .ok _ evs => evs
  | .err _ _ evs => evs

/-- Connection state of a run result. -/
def RunResult.conn : RunResult → Conn
  | .ok c _ => c
  | .err _ c _ => c

/-- Prepends earlier events to a run result. -/
def RunResult.prepend (evs : List Event) : RunResult → RunResult
  | .ok c evs2 => .ok c (evs ++ evs2)
  | .err m c evs2 => .err m c (evs ++ evs2)

/-- The `for page_number, page in enumerate(doc, start=1)` loop of
`process_pdf`, starting at page number `pn`: trim the page's text; skip the
page when the trimmed text is empty; otherwise embed it, insert the row, and
commit when the page number is a multiple of `commit_interval` (`k`). -/
def runPages (encode : String → Except String (List Rat)) (fileName : String)
    (numPages k : Nat) : Nat → List String → Conn → RunResult
  | _, [], conn => .ok conn []
  | pn, raw :: rest, conn =>
    let text := strip raw
    if text = "" then
      (runPages encode fileName numPages k (pn + 1) rest conn).prepend
        [.printSkip pn]
    else
      match encode text with
      | .error e => .err e conn [.printProcessingPage pn numPages]
      | .ok vec =>
        let conn2 := appendRecord conn fileName pn text (dumps vec)
        if pn % k = 0 then
          (runPages encode fileName numPages k (pn + 1) rest
              (commitConn conn2)).prepend
            [.printProcessingPage pn numPages, .embed pn, .commitEvent,
             .printCommitted pn]
        else
          (runPages encode fileName numPages k (pn + 1) rest conn2).prepend
            [.printProcessingPage pn numPages, .embed pn]

/-- `process_pdf(pdf_path, model, conn, commit_interval)`: open the document,
run the page loop from page 1, then the final unconditional commit. -/
def process_pdf (fitzOpen : String → Except String (List String))
    (encode : String → Except String (List Rat))
    (pdfPath : String) (conn : Conn) (k : Nat) : RunResult :=
  match fitzOpen pdfPath with
  | .error e => .err e conn []
  | .ok pages =>
    let fileName := baseName pdfPath
    let numPages := pages.length
    match runPages encode fileName numPages k 1 pages conn with
    | .ok c evs =>
        .ok (commitConn c)
          (Event.printProcessingPdf fileName numPages :: evs ++
            [Event.commitEvent, Event.printFinished fileName])
    | .err m c evs =>
        .err m c (Event.printProcessingPdf fileName numPages :: evs)

/-- How a run of `main` ends: `sys.exit(code)` / normal return, or an
uncaught exception. -/
inductive Outcome where
  | exited (code : Nat)
  | crashed (msg : String)
deriving DecidableEq

/-- Outcome of `main`, together with the resulting state of the database file
on disk and the events of the run, in order. -/
structure MainResult where
  outcome : Outcome
  disk : Option DBFile
  events : List Event

/-- `main()`: argument check, existence check, model load, `init_db`,
`process_pdf` with the default `commit_interval = 50`, `conn.close()`, final
confirmation print.  `argv` is the full `sys.argv` (program name included);
`pathExists` models `Path(...).exists()`; `disk` is the state of
`pdf_embeddings.db` before the run. -/
def main (argv : List String) (pathExists : String → Bool)
    (fitzOpen : String → Except String (List String))
    (encode : String → Except String (List Rat))
    (disk : Option DBFile) : MainResult :=
  if argv.length < 2 then
    { outcome := .exited 1, disk := disk, events := [.printUsage] }
  else
    let pdf_file := argv.getD 1 ""
    if !pathExists pdf_file then
      { outcome := .exited 1, disk := disk,
        events := [.printNotExist pdf_file] }
    else
      let evs0 : List Event := [.printLoadingModel, .printModelLoaded]
      let conn := init_db disk
      match process_pdf fitzOpen encode pdf_file conn 50 with
      | .ok c evs =>
          { outcome := .exited 0,
            disk := some { documents := some c.committed },
            events := evs0 ++ evs ++ [.closed, .printSaved] }
      | .err m c evs =>
          { outcome := .crashed m,
            disk := some { documents := some c.committed },
            events := evs0 ++ evs }

/-- Number of commit events in a trace. -/
def countCommits (evs : List Event) : Nat :=
  evs.count Event.commitEvent

/-- `freshIds base new`: each record of `new`, in order, has an id strictly
greater than every id present in the table at the moment it is inserted. -/
def freshIds : List Record → List Record → Prop
  | _, [] => True
  | base, r :: rest => (∀ r0 ∈ base, r0.id < r.id) ∧ freshIds (base ++ [r]) rest

/-! ## Basic facts about the store operations -/

theorem tableRows_appendRecord (c : Conn) (fn : String) (pg : Nat) (t : String)
    (e : Json) :
    tableRows (appendRecord c fn pg t e) =
      tableRows c ++
        [{ id := nextId (tableRows c), filename := fn, page := pg, text := t,
           embedding := e }] := by
  simp [tableRows, appendRecord]

theorem tableRows_commitConn (c : Conn) :
    tableRows (commitConn c) = tableRows c := by
  simp [tableRows, commitConn]

theorem id_le_foldr_max (rows : List Record) :
    ∀ r ∈ rows, r.id ≤ (rows.map Record.id).foldr Nat.max 0 := by
  induction rows with
  | nil => intro r hr; cases hr
  | cons a l ih =>
    intro r hr
    simp only [List.map_cons, List.foldr_cons]
    rcases List.mem_cons.mp hr with h | h
    · subst h; exact Nat.le_max_left _ _
    · exact le_trans (ih r h) (Nat.le_max_right _ _)

theorem id_lt_nextId {rows : List Record} {r : Record} (hr : r ∈ rows) :
    r.id < nextId rows := by
  unfold nextId
  exact Nat.lt_succ_of_le (id_le_foldr_max rows r hr)

theorem prepend_eq_ok {evs0 : List Event} {r : RunResult} {c : Conn}
    {evs : List Event} (h : r.prepend evs0 = RunResult.ok c evs) :
    ∃ evs1, r = RunResult.ok c evs1 ∧ evs = evs0 ++ evs1 := by
  cases r with
  | ok c1 evs1 =>
    simp only [RunResult.prepend, RunResult.ok.injEq] at h
    exact ⟨evs1, by rw [h.1], h.2.symm⟩
  | err m c1 evs1 => simp [RunResult.prepend] at h

theorem getD_shift {raw : String} {rest : List String} {pn p : Nat}
    (hp : pn + 1 ≤ p) :
    (raw :: rest).getD (p - pn) "" = rest.getD (p - (pn + 1)) "" := by
  have h : p - pn = (p - (pn + 1)) + 1 := by omega
  rw [h, List.getD_cons_succ]

theorem countCommits_cons_ne {e : Event} (he : e ≠ Event.commitEvent)
    (evs : List Event) : countCommits (e :: evs) = countCommits evs := by
  simp [countCommits, List.count_cons, he]

theorem countCommits_cons_commit (evs : List Event) :
    countCommits (Event.commitEvent :: evs) = countCommits evs + 1 := by
  simp [countCommits, List.count_cons]

theorem countCommits_append (evs1 evs2 : List Event) :
    countCommits (evs1 ++ evs2) = countCommits evs1 + countCommits evs2 := by
  simp [countCommits, List.count_append]

theorem freshIds_pairwise :
    ∀ (base new : List Record), freshIds base new →
      List.Pairwise (fun a b => a.id < b.id) new ∧
        ∀ r0 ∈ base, ∀ r ∈ new, r0.id < r.id := by
  intro base new
  induction new generalizing base with
  | nil => intro _; exact ⟨List.Pairwise.nil, by simp⟩
  | cons r rest ih =>
    rintro ⟨h1, h2⟩
    obtain ⟨hp, hcross⟩ := ih (base ++ [r]) h2
    refine ⟨List.Pairwise.cons ?_ hp, ?_⟩
    · intro r2 hr2; exact hcross r (by simp) r2 hr2
    · intro r0 hr0 r2 hr2
      rcases List.mem_cons.mp hr2 with rfl | hr2
      · exact h1 r0 hr0
      · exact hcross r0 (by simp [hr0]) r2 hr2

/-! ## Completion of the page loop when the embedder never fails -/

theorem runPages_total (encode : String → Except String (List Rat))
    (fn : String) (np k : Nat)
    (henc : ∀ s, ∃ v, encode s = Except.ok v) (l : List String) :
    ∀ (pn : Nat) (conn : Conn),
      ∃ c evs, runPages encode fn np k pn l conn = RunResult.ok c evs := by
  induction l with
  | nil => intro pn conn; exact ⟨conn, [], rfl⟩
  | cons raw rest ih =>
    intro pn conn
    by_cases hs : strip raw = ""
    · obtain ⟨c, evs, h⟩ := ih (pn + 1) conn
      refine ⟨c, Event.printSkip pn :: evs, ?_⟩
      simp only [runPages, if_pos hs, h, RunResult.prepend]
      rfl
    · obtain ⟨v, hv⟩ := henc (strip raw)
      by_cases hk : pn % k = 0
      · obtain ⟨c, evs, h⟩ := ih (pn + 1)
          (commitConn (appendRecord conn fn pn (strip raw) (dumps v)))
        refine ⟨c, [Event.printProcessingPage pn np, Event.embed pn,
          Event.commitEvent, Event.printCommitted pn] ++ evs, ?_⟩
        simp only [runPages, if_neg hs, hv, if_pos hk, h, RunResult.prepend]
      · obtain ⟨c, evs, h⟩ := ih (pn + 1)
          (appendRecord conn fn pn (strip raw) (dumps v))
        refine ⟨c, [Event.printProcessingPage pn np, Event.embed pn] ++ evs, ?_⟩
        simp only [runPages, if_neg hs, hv, if_neg hk, h, RunResult.prepend]

/-! ## Master specification of one successful page loop

For a page loop that ran to completion: the table grows by a suffix of new
rows, whose pages are exactly the non-skipped page numbers in order, whose
text/embedding/filename come from the corresponding page, whose ids are fresh
at each insertion; the embedder is invoked exactly on the non-skipped pages;
and a periodic commit happens exactly at each non-skipped page whose page
number is a multiple of the commit interval. -/

theorem runPages_ok_spec (encode : String → Except String (List Rat))
    (fn : String) (np k : Nat) (l : List String) :
    ∀ (pn : Nat) (conn c : Conn) (evs : List Event),
      runPages encode fn np k pn l conn = RunResult.ok c evs →
      ∃ newRows : List Record,
        tableRows c = tableRows conn ++ newRows ∧
        newRows.map Record.page =
          (List.range' pn l.length).filter
            (fun p => strip (l.getD (p - pn) "") != "") ∧
        (∀ r ∈ newRows, r.filename = fn ∧ pn ≤ r.page ∧
          r.page < pn + l.length ∧
          r.text = strip (l.getD (r.page - pn) "") ∧ r.text ≠ "" ∧
          ∃ v, encode r.text = Except.ok v ∧ r.embedding = dumps v) ∧
        freshIds (tableRows conn) newRows ∧
        (∀ p, Event.embed p ∈ evs ↔
          (pn ≤ p ∧ p < pn + l.length ∧ strip (l.getD (p - pn) "") ≠ "")) ∧
        countCommits evs =
          (List.range' pn l.length).countP
            (fun p => (strip (l.getD (p - pn) "") != "") && (p % k == 0)) := by
  induction l with
  | nil =>
    intro pn conn c evs h
    simp only [runPages, RunResult.ok.injEq] at h
    obtain ⟨rfl, rfl⟩ := h
    refine ⟨[], by simp, by simp, by simp, trivial, ?_, by simp [countCommits]⟩
    intro p
    constructor
    · intro hp; cases hp
    · rintro ⟨h1, h2, _⟩
      rw [List.length_nil] at h2
      omega
  | cons raw rest ih =>
    intro pn conn c evs h
    simp only [runPages] at h
    by_cases hs : strip raw = ""
    · rw [if_pos hs] at h
      obtain ⟨evs1, hrun, rfl⟩ := prepend_eq_ok h
      obtain ⟨newRows, h1, h2, h3, h4, h5, h6⟩ := ih (pn + 1) conn c evs1 hrun
      refine ⟨newRows, h1, ?_, ?_, h4, ?_, ?_⟩
      · rw [List.length_cons, List.range'_succ, List.filter_cons]
        have hhead : (strip ((raw :: rest).getD (pn - pn) "") != "") = false := by
          simp [Nat.sub_self, hs]
        rw [hhead]
        simp only [Bool.false_eq_true, if_false]
        rw [h2]
        exact List.filter_congr fun p hp => by
          rw [getD_shift (List.mem_range'_1.mp hp).1]
      · intro r hr
        obtain ⟨hf, hp1, hp2, ht, hne, hv⟩ := h3 r hr
        refine ⟨hf, by omega, ?_, ?_, hne, hv⟩
        · rw [List.length_cons]; omega
        · rw [getD_shift hp1]; exact ht
      · intro p
        rw [List.singleton_append, List.mem_cons]
        constructor
        · rintro (hq | hq)
          · simp at hq
          · obtain ⟨hp1, hp2, hp3⟩ := (h5 p).mp hq
            refine ⟨by omega, ?_, ?_⟩
            · rw [List.length_cons]; omega
            · rw [getD_shift hp1]; exact hp3
        · rintro ⟨hp1, hp2, hp3⟩
          by_cases hpn : p = pn
          · subst hpn
            rw [Nat.sub_self, List.getD_cons_zero] at hp3
            exact absurd hs hp3
          · right
            have hge : pn + 1 ≤ p := by omega
            rw [getD_shift hge] at hp3
            rw [List.length_cons] at hp2
            exact (h5 p).mpr ⟨hge, by omega, hp3⟩
      · rw [List.singleton_append, countCommits_cons_ne (by simp), h6]
        rw [List.length_cons, List.range'_succ, List.countP_cons]
        have hhead :
            ((strip ((raw :: rest).getD (pn - pn) "") != "") &&
              (pn % k == 0)) = false := by
          simp [Nat.sub_self, hs]
        rw [hhead]
        simp only [Bool.false_eq_true, if_false, Nat.add_zero]
        exact List.countP_congr fun p hp => by
          rw [getD_shift (List.mem_range'_1.mp hp).1]
    · rw [if_neg hs] at h
      split at h
      · exact RunResult.noConfusion h
      · rename_i vec heq
        by_cases hk : pn % k = 0
        · rw [if_pos hk] at h
          obtain ⟨evs1, hrun, rfl⟩ := prepend_eq_ok h
          obtain ⟨newRows, h1, h2, h3, h4, h5, h6⟩ :=
            ih (pn + 1)
              (commitConn (appendRecord conn fn pn (strip raw) (dumps vec)))
              c evs1 hrun
          rw [tableRows_commitConn, tableRows_appendRecord] at h1 h4
          refine ⟨{ id := nextId (tableRows conn), filename := fn,
                    page := pn, text := strip raw,
                    embedding := dumps vec } :: newRows,
            ?_, ?_, ?_, ?_, ?_, ?_⟩
          · rw [h1, List.append_assoc]; rfl
          · rw [List.length_cons, List.range'_succ, List.filter_cons]
            have hhead :
                (strip ((raw :: rest).getD (pn - pn) "") != "") = true := by
              simp [Nat.sub_self, hs]
            rw [hhead, if_pos rfl]
            simp only [List.map_cons]
            congr 1
            rw [h2]
            exact List.filter_congr fun p hp => by
              rw [getD_shift (List.mem_range'_1.mp hp).1]
          · intro r hr
            rcases List.mem_cons.mp hr with rfl | hr
            · refine ⟨rfl, le_refl pn, ?_, ?_, hs, vec, heq, rfl⟩
              · show pn < pn + (raw :: rest).length
                rw [List.length_cons]; omega
              · show strip raw = strip ((raw :: rest).getD (pn - pn) "")
                rw [Nat.sub_self, List.getD_cons_zero]
            · obtain ⟨hf, hp1, hp2, ht, hne, hv⟩ := h3 r hr
              refine ⟨hf, by omega, ?_, ?_, hne, hv⟩
              · rw [List.length_cons]; omega
              · rw [getD_shift hp1]; exact ht
          · exact ⟨fun r0 hr0 => id_lt_nextId hr0, h4⟩
          · intro p
            simp only [List.cons_append, List.nil_append, List.mem_cons]
            constructor
            · rintro (hq | hq | hq | hq | hq)
              · simp at hq
              · rw [Event.embed.injEq] at hq
                subst hq
                refine ⟨le_refl _, ?_, ?_⟩
                · rw [List.length_cons]; omega
                · rw [Nat.sub_self, List.getD_cons_zero]; exact hs
              · simp at hq
              · simp at hq
              · obtain ⟨hp1, hp2, hp3⟩ := (h5 p).mp hq
                refine ⟨by omega, ?_, ?_⟩
                · rw [List.length_cons]; omega
                · rw [getD_shift hp1]; exact hp3
            · rintro ⟨hp1, hp2, hp3⟩
              by_cases hpn : p = pn
              · subst hpn; exact Or.inr (Or.inl rfl)
              · have hge : pn + 1 ≤ p := by omega
                rw [getD_shift hge] at hp3
                rw [List.length_cons] at hp2
                exact Or.inr (Or.inr (Or.inr (Or.inr
                  ((h5 p).mpr ⟨hge, by omega, hp3⟩))))
          · have hlit : countCommits [Event.printProcessingPage pn np,
                Event.embed pn, Event.commitEvent, Event.printCommitted pn]
                = 1 := by
              rw [countCommits_cons_ne (by simp),
                countCommits_cons_ne (by simp), countCommits_cons_commit,
                countCommits_cons_ne (by simp)]
              simp [countCommits]
            rw [countCommits_append, hlit, h6]
            rw [List.length_cons, List.range'_succ, List.countP_cons]
            have hhead :
                ((strip ((raw :: rest).getD (pn - pn) "") != "") &&
                  (pn % k == 0)) = true := by
              simp [Nat.sub_self, hs, hk]
            rw [hhead, if_pos rfl]
            have hcp :
                (List.range' (pn + 1) rest.length).countP
                    (fun p => (strip (rest.getD (p - (pn + 1)) "") != "") &&
                      (p % k == 0)) =
                  (List.range' (pn + 1) rest.length).countP
                    (fun p =>
                      (strip ((raw :: rest).getD (p - pn) "") != "") &&
                      (p % k == 0)) :=
              List.countP_congr fun p hp => by
                rw [getD_shift (List.mem_range'_1.mp hp).1]
            omega
        · rw [if_neg hk] at h
          obtain ⟨evs1, hrun, rfl⟩ := prepend_eq_ok h
          obtain ⟨newRows, h1, h2, h3, h4, h5, h6⟩ :=
            ih (pn + 1)
              (appendRecord conn fn pn (strip raw) (dumps vec))
              c evs1 hrun
          rw [tableRows_appendRecord] at h1 h4
          refine ⟨{ id := nextId (tableRows conn), filename := fn,
                    page := pn, text := strip raw,
                    embedding := dumps vec } :: newRows,
            ?_, ?_, ?_, ?_, ?_, ?_⟩
          · rw [h1, List.append_assoc]; rfl
          · rw [List.length_cons, List.range'_succ, List.filter_cons]
            have hhead :
                (strip ((raw :: rest).getD (pn - pn) "") != "") = true := by
              simp [Nat.sub_self, hs]
            rw [hhead, if_pos rfl]
            simp only [List.map_cons]
            congr 1
            rw [h2]
            exact List.filter_congr fun p hp => by
              rw [getD_shift (List.mem_range'_1.mp hp).1]
          · intro r hr
            rcases List.mem_cons.mp hr with rfl | hr
            · refine ⟨rfl, le_refl pn, ?_, ?_, hs, vec, heq, rfl⟩
              · show pn < pn + (raw :: rest).length
                rw [List.length_cons]; omega
              · show strip raw = strip ((raw :: rest).getD (pn - pn) "")
                rw [Nat.sub_self, List.getD_cons_zero]
            · obtain ⟨hf, hp1, hp2, ht, hne, hv⟩ := h3 r hr
              refine ⟨hf, by omega, ?_, ?_, hne, hv⟩
              · rw [List.length_cons]; omega
              · rw [getD_shift hp1]; exact ht
          · exact ⟨fun r0 hr0 => id_lt_nextId hr0, h4⟩
          · intro p
            simp only [List.cons_append, List.nil_append, List.mem_cons]
            constructor
            · rintro (hq | hq | hq)
              · simp at hq
              · rw [Event.embed.injEq] at hq
                subst hq
                refine ⟨le_refl _, ?_, ?_⟩
                · rw [List.length_cons]; omega
                · rw [Nat.sub_self, List.getD_cons_zero]; exact hs
              · obtain ⟨hp1, hp2, hp3⟩ := (h5 p).mp hq
                refine ⟨by omega, ?_, ?_⟩
                · rw [List.length_cons]; omega
                · rw [getD_shift hp1]; exact hp3
            · rintro ⟨hp1, hp2, hp3⟩
              by_cases hpn : p = pn
              · subst hpn; exact Or.inr (Or.inl rfl)
              · have hge : pn + 1 ≤ p := by omega
                rw [getD_shift hge] at hp3
                rw [List.length_cons] at hp2
                exact Or.inr (Or.inr ((h5 p).mpr ⟨hge, by omega, hp3⟩))
          · have hlit : countCommits [Event.printProcessingPage pn np,
                Event.embed pn] = 0 := by
              rw [countCommits_cons_ne (by simp),
                countCommits_cons_ne (by simp)]
              simp [countCommits]
            rw [countCommits_append, hlit, h6]
            rw [List.length_cons, List.range'_succ, List.countP_cons]
            have hhead :
                ((strip ((raw :: rest).getD (pn - pn) "") != "") &&
                  (pn % k == 0)) = false := by
              simp [Nat.sub_self, hs, hk]
            rw [hhead]
            simp only [Bool.false_eq_true, if_false, Nat.add_zero,
              Nat.zero_add]
            exact List.countP_congr fun p hp => by
              rw [getD_shift (List.mem_range'_1.mp hp).1]

/-! ## Further helper lemmas -/

theorem loadsElems_map_num (w : List Rat) :
    loadsElems (w.map Json.num) = some w := by
  induction w with
  | nil => rfl
  | cons q rest ih => simp [List.map_cons, loadsElems, ih]

theorem loads_dumps (v : List Rat) : loads (dumps v) = some v := by
  simp [loads, dumps, loadsElems_map_num]

theorem events_prepend (evs0 : List Event) (r : RunResult) :
    (r.prepend evs0).events = evs0 ++ r.events := by
  cases r <;> rfl

theorem closed_not_in_runPages (encode : String → Except String (List Rat))
    (fn : String) (np k : Nat) (l : List String) :
    ∀ (pn : Nat) (conn : Conn),
      Event.closed ∉ (runPages encode fn np k pn l conn).events := by
  induction l with
  | nil => intro pn conn hp; cases hp
  | cons raw rest ih =>
    intro pn conn
    simp only [runPages]
    by_cases hs : strip raw = ""
    · rw [if_pos hs, events_prepend]
      intro hp
      rcases List.mem_append.mp hp with hp | hp
      · simp at hp
      · exact ih (pn + 1) conn hp
    · rw [if_neg hs]
      rcases henc : encode (strip raw) with e | vec <;> simp only [henc]
      · intro hp; simp [RunResult.events] at hp
      · by_cases hk : pn % k = 0
        · rw [if_pos hk, events_prepend]
          intro hp
          rcases List.mem_append.mp hp with hp | hp
          · simp at hp
          · exact ih (pn + 1) _ hp
        · rw [if_neg hk, events_prepend]
          intro hp
          rcases List.mem_append.mp hp with hp | hp
          · simp at hp
          · exact ih (pn + 1) _ hp

theorem closed_not_in_process_pdf
    (fitzOpen : String → Except String (List String))
    (encode : String → Except String (List Rat)) (pdfPath : String)
    (conn : Conn) (k : Nat) :
    Event.closed ∉ (process_pdf fitzOpen encode pdfPath conn k).events := by
  unfold process_pdf
  cases hfz : fitzOpen pdfPath with
  | error e => intro hp; simp [RunResult.events] at hp
  | ok pages =>
    have hin := closed_not_in_runPages encode (baseName pdfPath) pages.length
      k pages 1 conn
    cases hrun : runPages encode (baseName pdfPath) pages.length k
        1 pages conn with
    | ok c1 evs1 =>
      rw [hrun] at hin
      simp only [hrun, RunResult.events]
      intro hp
      rcases List.mem_cons.mp hp with hp | hp
      · simp at hp
      · rcases List.mem_append.mp hp with hp | hp
        · exact hin hp
        · simp at hp
    | err m c1 evs1 =>
      rw [hrun] at hin
      simp only [hrun, RunResult.events]
      intro hp
      rcases List.mem_cons.mp hp with hp | hp
      · simp at hp
      · exact hin hp

theorem getD_mem {l : List String} {i : Nat} (h : i < l.length) :
    l.getD i "" ∈ l := by
  rw [List.getD_eq_getElem l "" h]
  exact List.getElem_mem h

/-- All-non-blank page loop: the pending-row count stays below the commit
interval, tracking `page_number % k`. -/
theorem runPages_pending_mod (encode : String → Except String (List Rat))
    (fn : String) (np k : Nat)
    (henc : ∀ s, ∃ v, encode s = Except.ok v) (hk : 0 < k)
    (l : List String) :
    ∀ (pn : Nat) (conn : Conn), (∀ raw ∈ l, strip raw ≠ "") →
      (conn.pending.length + 1) % k = pn % k → conn.pending.length < k →
      ∃ c evs, runPages encode fn np k pn l conn = RunResult.ok c evs ∧
        (c.pending.length + 1) % k = (pn + l.length) % k ∧
        c.pending.length < k := by
  induction l with
  | nil =>
    intro pn conn _ h1 h2
    exact ⟨conn, [], rfl, by simpa using h1, h2⟩
  | cons raw rest ih =>
    intro pn conn hne h1 h2
    have hs : strip raw ≠ "" := hne raw (List.mem_cons_self raw rest)
    have hrest : ∀ raw2 ∈ rest, strip raw2 ≠ "" :=
      fun r hr => hne r (List.mem_cons_of_mem raw hr)
    obtain ⟨vec, hv⟩ := henc (strip raw)
    by_cases hkd : pn % k = 0
    · have hinv1 : ((commitConn (appendRecord conn fn pn (strip raw)
          (dumps vec))).pending.length + 1) % k = (pn + 1) % k := by
        show (List.length [] + 1) % k = (pn + 1) % k
        conv_rhs => rw [Nat.add_mod, hkd]
        simp [Nat.mod_mod_of_dvd]
      have hinv2 : (commitConn (appendRecord conn fn pn (strip raw)
          (dumps vec))).pending.length < k := by
        show List.length [] < k
        simpa using hk
      obtain ⟨c, evs, hrun, hp1, hp2⟩ := ih (pn + 1) _ hrest hinv1 hinv2
      refine ⟨c, [Event.printProcessingPage pn np, Event.embed pn,
        Event.commitEvent, Event.printCommitted pn] ++ evs, ?_, ?_, hp2⟩
      · simp only [runPages, if_neg hs, hv, if_pos hkd, hrun,
          RunResult.prepend]
      · rw [hp1, List.length_cons]
        congr 1
        omega
    · have hp1k : conn.pending.length + 1 < k := by
        rcases Nat.lt_or_ge (conn.pending.length + 1) k with hlt | hge
        · exact hlt
        · have heq : conn.pending.length + 1 = k := by omega
          rw [heq, Nat.mod_self] at h1
          exact absurd h1.symm hkd
      have hinv1 : ((appendRecord conn fn pn (strip raw)
          (dumps vec)).pending.length + 1) % k = (pn + 1) % k := by
        have hlen : (appendRecord conn fn pn (strip raw)
            (dumps vec)).pending.length = conn.pending.length + 1 := by
          simp [appendRecord]
        rw [hlen, Nat.add_mod (conn.pending.length + 1) 1,
          Nat.add_mod pn 1, h1]
      have hinv2 : (appendRecord conn fn pn (strip raw)
          (dumps vec)).pending.length < k := by
        have hlen : (appendRecord conn fn pn (strip raw)
            (dumps vec)).pending.length = conn.pending.length + 1 := by
          simp [appendRecord]
        omega
      obtain ⟨c, evs, hrun, hp1, hp2⟩ := ih (pn + 1) _ hrest hinv1 hinv2
      refine ⟨c, [Event.printProcessingPage pn np, Event.embed pn] ++ evs,
        ?_, ?_, hp2⟩
      · simp only [runPages, if_neg hs, hv, if_neg hkd, hrun,
          RunResult.prepend]
      · rw [hp1, List.length_cons]
        congr 1
        omega

/-- Among the page numbers `1..m`, exactly `m / k` are multiples of `k`. -/
theorem countP_multiples (k m : Nat) :
    (List.range' 1 m).countP (fun p => p % k == 0) = m / k := by
  induction m with
  | zero => simp
  | succ n ih =>
    rw [List.range'_concat, List.countP_append, ih, Nat.succ_div]
    have h1 : 1 + 1 * n = n + 1 := by omega
    rw [h1]
    by_cases hd : k ∣ n + 1
    · have hmod : (n + 1) % k = 0 := (Nat.dvd_iff_mod_eq_zero).mp hd
      simp [List.countP_cons, hmod, hd]
    · have hmod : (n + 1) % k ≠ 0 :=
        fun h => hd ((Nat.dvd_iff_mod_eq_zero).mpr h)
      simp [List.countP_cons, hmod, hd]

/-- Completion of `process_pdf` when the document opens and the embedder
never fails. -/
theorem process_pdf_total (fitzOpen : String → Except String (List String))
    (encode : String → Except String (List Rat)) (pdfPath : String)
    (conn : Conn) (k : Nat) (l : List String)
    (hfz : fitzOpen pdfPath = Except.ok l)
    (henc : ∀ s, ∃ v, encode s = Except.ok v) :
    ∃ c evs, process_pdf fitzOpen encode pdfPath conn k =
      RunResult.ok c evs := by
  obtain ⟨c1, evs1, h⟩ :=
    runPages_total encode (baseName pdfPath) l.length k henc l 1 conn
  refine ⟨commitConn c1,
    Event.printProcessingPdf (baseName pdfPath) l.length :: evs1 ++
      [Event.commitEvent, Event.printFinished (baseName pdfPath)], ?_⟩
  simp only [process_pdf, hfz, h]

/-- Master specification at the `process_pdf` level: the header line, the
inner page-loop events, the final unconditional commit and the completion
line; plus everything `runPages_ok_spec` gives about rows and events. -/
theorem process_pdf_ok_spec (fitzOpen : String → Except String (List String))
    (encode : String → Except String (List Rat)) (pdfPath : String)
    (conn : Conn) (k : Nat) (l : List String) (c : Conn) (evs : List Event)
    (hfz : fitzOpen pdfPath = Except.ok l)
    (h : process_pdf fitzOpen encode pdfPath conn k = RunResult.ok c evs) :
    ∃ (newRows : List Record) (evsIn : List Event),
      evs = Event.printProcessingPdf (baseName pdfPath) l.length :: evsIn ++
          [Event.commitEvent, Event.printFinished (baseName pdfPath)] ∧
      c.pending = [] ∧
      tableRows c = tableRows conn ++ newRows ∧
      newRows.map Record.page =
        (List.range' 1 l.length).filter
          (fun p => strip (l.getD (p - 1) "") != "") ∧
      (∀ r ∈ newRows, r.filename = baseName pdfPath ∧ 1 ≤ r.page ∧
        r.page < 1 + l.length ∧ r.text = strip (l.getD (r.page - 1) "") ∧
        r.text ≠ "" ∧
        ∃ v, encode r.text = Except.ok v ∧ r.embedding = dumps v) ∧
      freshIds (tableRows conn) newRows ∧
      (∀ p, Event.embed p ∈ evsIn ↔
        (1 ≤ p ∧ p < 1 + l.length ∧ strip (l.getD (p - 1) "") ≠ "")) ∧
      countCommits evsIn =
        (List.range' 1 l.length).countP
          (fun p => (strip (l.getD (p - 1) "") != "") && (p % k == 0)) := by
  simp only [process_pdf, hfz] at h
  cases hrun : runPages encode (baseName pdfPath) l.length k 1 l conn with
  | err m c1 evs1 =>
    rw [hrun] at h
    exact RunResult.noConfusion h
  | ok c1 evs1 =>
    rw [hrun] at h
    simp only [RunResult.ok.injEq] at h
    obtain ⟨hc, hevs⟩ := h
    subst hc
    subst hevs
    obtain ⟨newRows, h1, h2, h3, h4, h5, h6⟩ :=
      runPages_ok_spec encode (baseName pdfPath) l.length k l 1 conn c1
        evs1 hrun
    refine ⟨newRows, evs1, rfl, rfl, ?_, h2, h3, h4, h5, h6⟩
    rw [tableRows_commitConn]
    exact h1

/-! ## Claim theorems -/

/-- C2: for every page whose extracted, whitespace-stripped text is empty, no
record is inserted into the store and no embedding is computed for that page;
consequently every stored record carries the non-empty stripped text of its
page. -/
theorem empty_page_excluded
    (fitzOpen : String → Except String (List String))
    (encode : String → Except String (List Rat)) (pdfPath : String)
    (conn : Conn) (k : Nat) (l : List String) (c : Conn) (evs : List Event)
    (hfz : fitzOpen pdfPath = Except.ok l)
    (h : process_pdf fitzOpen encode pdfPath conn k = RunResult.ok c evs) :
    ∃ newRows, tableRows c = tableRows conn ++ newRows ∧
      (∀ i, i < l.length → strip (l.getD i "") = "" →
        (Event.embed (1 + i) ∉ evs ∧ ∀ r ∈ newRows, r.page ≠ 1 + i)) ∧
      (∀ r ∈ newRows,
        r.text ≠ "" ∧ r.text = strip (l.getD (r.page - 1) "")) := by
  obtain ⟨newRows, evsIn, hevs, hpend, hrows, hmap, hper, hfresh, hembed,
    hcount⟩ := process_pdf_ok_spec fitzOpen encode pdfPath conn k l c evs hfz h
  refine ⟨newRows, hrows, ?_, ?_⟩
  · intro i hi hstrip
    constructor
    · subst hevs
      intro hp
      rcases List.mem_cons.mp hp with hp | hp
      · simp at hp
      · rcases List.mem_append.mp hp with hp | hp
        · obtain ⟨_, _, hne⟩ := (hembed (1 + i)).mp hp
          rw [Nat.add_sub_cancel_left] at hne
          exact hne hstrip
        · simp at hp
    · intro r hr hpage
      obtain ⟨_, _, _, ht, hne, _⟩ := hper r hr
      rw [hpage, Nat.add_sub_cancel_left, hstrip] at ht
      exact hne ht
  · intro r hr
    obtain ⟨_, _, _, ht, hne, _⟩ := hper r hr
    exact ⟨hne, ht⟩

theorem empty_page_excluded_witness :
    Event.embed 1 ∉ [Event.printProcessingPdf "x.pdf" 1, Event.printSkip 1,
      Event.commitEvent, Event.printFinished "x.pdf"] := by
  obtain ⟨newRows, h1, h2, h3⟩ :=
    empty_page_excluded (fun _ => Except.ok [""]) (fun _ => Except.ok [])
      "x.pdf" (Conn.mk [] []) 50 [""] (Conn.mk [] [])
      [Event.printProcessingPdf "x.pdf" 1, Event.printSkip 1,
        Event.commitEvent, Event.printFinished "x.pdf"] rfl rfl
  exact (h2 0 (by decide) (by decide)).1

/-- C3: processing a document all of whose pages have non-empty stripped text
adds exactly one record per page, with page values `1..N` in insertion
order. -/
theorem all_pages_stored
    (fitzOpen : String → Except String (List String))
    (encode : String → Except String (List Rat)) (pdfPath : String)
    (conn : Conn) (k : Nat) (l : List String)
    (hfz : fitzOpen pdfPath = Except.ok l)
    (henc : ∀ s, ∃ v, encode s = Except.ok v)
    (hne : ∀ raw ∈ l, strip raw ≠ "") :
    ∃ c evs newRows,
      process_pdf fitzOpen encode pdfPath conn k = RunResult.ok c evs ∧
      tableRows c = tableRows conn ++ newRows ∧
      newRows.length = l.length ∧
      newRows.map Record.page = List.range' 1 l.length := by
  obtain ⟨c, evs, h⟩ :=
    process_pdf_total fitzOpen encode pdfPath conn k l hfz henc
  obtain ⟨newRows, evsIn, hevs, hpend, hrows, hmap, hper, hfresh, hembed,
    hcount⟩ := process_pdf_ok_spec fitzOpen encode pdfPath conn k l c evs hfz h
  have hfull : (List.range' 1 l.length).filter
      (fun p => strip (l.getD (p - 1) "") != "") = List.range' 1 l.length := by
    rw [List.filter_eq_self]
    intro p hp
    obtain ⟨hp1, hp2⟩ := List.mem_range'_1.mp hp
    have hi : p - 1 < l.length := by omega
    have hm := hne (l.getD (p - 1) "") (getD_mem hi)
    simpa using hm
  have hmap2 : newRows.map Record.page = List.range' 1 l.length := by
    rw [hmap, hfull]
  refine ⟨c, evs, newRows, h, hrows, ?_, hmap2⟩
  have hlen := congrArg List.length hmap2
  simpa using hlen

theorem all_pages_stored_witness :
    ∃ c evs newRows,
      process_pdf (fun _ => Except.ok ["a"]) (fun _ => Except.ok [])
        "x.pdf" (Conn.mk [] []) 50 = RunResult.ok c evs ∧
      tableRows c = tableRows (Conn.mk [] []) ++ newRows ∧
      newRows.length = 1 ∧
      newRows.map Record.page = List.range' 1 1 :=
  all_pages_stored (fun _ => Except.ok ["a"]) (fun _ => Except.ok [])
    "x.pdf" (Conn.mk [] []) 50 ["a"] rfl (fun _ => ⟨[], rfl⟩) (by decide)

/-- C5: every stored record's embedding column is the JSON serialization of
the vector the model produced for that record's text, and deserializing it
yields back exactly that vector (same length and values). -/
theorem embedding_roundtrip
    (fitzOpen : String → Except String (List String))
    (encode : String → Except String (List Rat)) (pdfPath : String)
    (conn : Conn) (k : Nat) (l : List String) (c : Conn) (evs : List Event)
    (hfz : fitzOpen pdfPath = Except.ok l)
    (h : process_pdf fitzOpen encode pdfPath conn k = RunResult.ok c evs) :
    ∃ newRows, tableRows c = tableRows conn ++ newRows ∧
      ∀ r ∈ newRows, ∃ v, encode r.text = Except.ok v ∧
        r.embedding = dumps v ∧ loads r.embedding = some v := by
  obtain ⟨newRows, evsIn, hevs, hpend, hrows, hmap, hper, hfresh, hembed,
    hcount⟩ := process_pdf_ok_spec fitzOpen encode pdfPath conn k l c evs hfz h
  refine ⟨newRows, hrows, ?_⟩
  intro r hr
  obtain ⟨_, _, _, _, _, v, hv, hemb⟩ := hper r hr
  refine ⟨v, hv, hemb, ?_⟩
  rw [hemb, loads_dumps]

theorem embedding_roundtrip_witness :
    ∃ newRows,
      tableRows
          (Conn.mk [Record.mk 1 "x.pdf" 1 "a" (dumps [(1 : Rat)])] []) =
        tableRows (Conn.mk [] []) ++ newRows ∧
      ∀ r ∈ newRows, ∃ v,
        (fun (_ : String) =>
          (Except.ok [(1 : Rat)] : Except String (List Rat))) r.text =
          Except.ok v ∧
        r.embedding = dumps v ∧ loads r.embedding = some v :=
  embedding_roundtrip (fun _ => Except.ok ["a"])
    (fun _ => Except.ok [(1 : Rat)]) "x.pdf" (Conn.mk [] []) 50 ["a"]
    (Conn.mk [Record.mk 1 "x.pdf" 1 "a" (dumps [(1 : Rat)])] [])
    [Event.printProcessingPdf "x.pdf" 1, Event.printProcessingPage 1 1,
      Event.embed 1, Event.commitEvent, Event.printFinished "x.pdf"]
    rfl rfl

/-- C10: within one processing pass the new records have strictly increasing
page values, strictly increasing auto-assigned ids each greater than every id
already in the table when it was inserted, and every new record's filename is
the base name of the input path. -/
theorem insertion_order_ids
    (fitzOpen : String → Except String (List String))
    (encode : String → Except String (List Rat)) (pdfPath : String)
    (conn : Conn) (k : Nat) (l : List String) (c : Conn) (evs : List Event)
    (hfz : fitzOpen pdfPath = Except.ok l)
    (h : process_pdf fitzOpen encode pdfPath conn k = RunResult.ok c evs) :
    ∃ newRows, tableRows c = tableRows conn ++ newRows ∧
      List.Pairwise (fun a b => a.page < b.page) newRows ∧
      List.Pairwise (fun a b => a.id < b.id) newRows ∧
      (∀ r0 ∈ tableRows conn, ∀ r ∈ newRows, r0.id < r.id) ∧
      (∀ r ∈ newRows, r.filename = baseName pdfPath) := by
  obtain ⟨newRows, evsIn, hevs, hpend, hrows, hmap, hper, hfresh, hembed,
    hcount⟩ := process_pdf_ok_spec fitzOpen encode pdfPath conn k l c evs hfz h
  obtain ⟨hpw, hcross⟩ := freshIds_pairwise (tableRows conn) newRows hfresh
  have hpages : List.Pairwise (· < ·) (newRows.map Record.page) := by
    rw [hmap]
    exact List.Pairwise.filter _ (List.pairwise_lt_range' 1 l.length)
  exact ⟨newRows, hrows, List.pairwise_map.mp hpages, hpw, hcross,
    fun r hr => (hper r hr).1⟩

theorem insertion_order_ids_witness :
    ∃ newRows,
      tableRows (Conn.mk [Record.mk 1 "x.pdf" 1 "a" (dumps [])] []) =
        tableRows (Conn.mk [] []) ++ newRows ∧
      List.Pairwise (fun a b => a.page < b.page) newRows ∧
      List.Pairwise (fun a b => a.id < b.id) newRows ∧
      (∀ r0 ∈ tableRows (Conn.mk [] []), ∀ r ∈ newRows, r0.id < r.id) ∧
      (∀ r ∈ newRows, r.filename = baseName "x.pdf") :=
  insertion_order_ids (fun _ => Except.ok ["a"]) (fun _ => Except.ok [])
    "x.pdf" (Conn.mk [] []) 50 ["a"]
    (Conn.mk [Record.mk 1 "x.pdf" 1 "a" (dumps [])] [])
    [Event.printProcessingPdf "x.pdf" 1, Event.printProcessingPage 1 1,
      Event.embed 1, Event.commitEvent, Event.printFinished "x.pdf"]
    rfl rfl

/-- C4: processing a 3-page document whose middle page strips to empty, with
commit interval 50, ends with exactly two new records whose page values are
1 and 3, and with a single commit event during the pass: the final
unconditional one after the last page. -/
theorem three_page_blank_middle
    (fitzOpen : String → Except String (List String))
    (encode : String → Except String (List Rat)) (pdfPath : String)
    (conn : Conn) (p1 p2 p3 : String)
    (hfz : fitzOpen pdfPath = Except.ok [p1, p2, p3])
    (henc : ∀ s, ∃ v, encode s = Except.ok v)
    (h1 : strip p1 ≠ "") (h2 : strip p2 = "") (h3 : strip p3 ≠ "") :
    ∃ c evsIn newRows,
      process_pdf fitzOpen encode pdfPath conn 50 =
        RunResult.ok c (Event.printProcessingPdf (baseName pdfPath) 3 ::
          evsIn ++
          [Event.commitEvent, Event.printFinished (baseName pdfPath)]) ∧
      tableRows c = tableRows conn ++ newRows ∧
      newRows.length = 2 ∧
      newRows.map Record.page = [1, 3] ∧
      countCommits evsIn = 0 := by
  obtain ⟨c, evs, h⟩ :=
    process_pdf_total fitzOpen encode pdfPath conn 50 [p1, p2, p3] hfz henc
  obtain ⟨newRows, evsIn, hevs, hpend, hrows, hmap, hper, hfresh, hembed,
    hcount⟩ := process_pdf_ok_spec fitzOpen encode pdfPath conn 50
      [p1, p2, p3] c evs hfz h
  have e1 : (strip p1 != "") = true := by simpa using h1
  have e2 : (strip p2 != "") = false := by simp [h2]
  have e3 : (strip p3 != "") = true := by simpa using h3
  have hfilter : (List.range' 1 ([p1, p2, p3] : List String).length).filter
      (fun p =>
        strip (([p1, p2, p3] : List String).getD (p - 1) "") != "") =
      [1, 3] := by
    show List.filter _ [1, 2, 3] = [1, 3]
    simp [List.filter_cons, List.getD_cons_zero, List.getD_cons_succ,
      e1, e2, e3]
  have hmap2 : newRows.map Record.page = [1, 3] := by rw [hmap, hfilter]
  have hlen : newRows.length = 2 := by
    have hl := congrArg List.length hmap2
    simpa using hl
  have hcnt : countCommits evsIn = 0 := by
    rw [hcount]
    show List.countP _ [1, 2, 3] = 0
    simp [List.countP_cons, List.getD_cons_zero, List.getD_cons_succ,
      e1, e2, e3]
  refine ⟨c, evsIn, newRows, ?_, hrows, hlen, hmap2, hcnt⟩
  rw [h, hevs]
  rfl

theorem three_page_blank_middle_witness :
    ∃ c evsIn newRows,
      process_pdf (fun _ => Except.ok ["a", "", "b"]) (fun _ => Except.ok [])
          "x.pdf" (Conn.mk [] []) 50 =
        RunResult.ok c (Event.printProcessingPdf (baseName "x.pdf") 3 ::
          evsIn ++
          [Event.commitEvent, Event.printFinished (baseName "x.pdf")]) ∧
      tableRows c = tableRows (Conn.mk [] []) ++ newRows ∧
      newRows.length = 2 ∧
      newRows.map Record.page = [1, 3] ∧
      countCommits evsIn = 0 :=
  three_page_blank_middle (fun _ => Except.ok ["a", "", "b"])
    (fun _ => Except.ok []) "x.pdf" (Conn.mk [] []) "a" "" "b" rfl
    (fun _ => ⟨[], rfl⟩) (by decide) rfl (by decide)

/-- C1, counterexample: with commit interval 2 and a five-page document whose
pages 1, 3, 5 carry text — three non-skipped pages — the pass performs no
periodic commit at all (its only commit event is the final one) and holds
three appended records uncommitted at once, contradicting the claimed
"commit after every k appended records, never more than k uncommitted,
at least floor(m/k) periodic commits": the code keys the periodic commit to
the page number, not to the number of appended records. -/
theorem commit_cadence_counterexample :
    (["a", "", "b", "", "c"] : List String).countP
        (fun s => strip s != "") = 3 ∧
    countCommits ((process_pdf (fun _ => Except.ok ["a", "", "b", "", "c"])
        (fun _ => Except.ok []) "doc.pdf" (Conn.mk [] []) 2).events) = 1 ∧
    ((runPages (fun _ => Except.ok []) "doc.pdf" 5 2 1
        ["a", "", "b", "", "c"] (Conn.mk [] [])).conn).pending.length = 3 ∧
    ¬ (2 ≤ countCommits
          ((process_pdf (fun _ => Except.ok ["a", "", "b", "", "c"])
            (fun _ => Except.ok []) "doc.pdf" (Conn.mk [] []) 2).events) ∧
        ((runPages (fun _ => Except.ok []) "doc.pdf" 5 2 1
          ["a", "", "b", "", "c"] (Conn.mk [] [])).conn).pending.length
          ≤ 2) := by
  decide

/-- C1, amended: the periodic commit is keyed to the 1-based page number
(a commit fires after the insert of each non-skipped page whose page number
is a multiple of `k`), not to the count of appended records.  Hence for a
document in which no page is skipped the pass performs exactly
`⌊m / k⌋` periodic commits plus the one final unconditional commit, and at
every page boundary strictly fewer than `k` records are uncommitted. -/
theorem commit_cadence_page_keyed
    (fitzOpen : String → Except String (List String))
    (encode : String → Except String (List Rat)) (pdfPath : String)
    (conn : Conn) (k : Nat) (l : List String)
    (hfz : fitzOpen pdfPath = Except.ok l)
    (henc : ∀ s, ∃ v, encode s = Except.ok v)
    (hk : 0 < k)
    (hne : ∀ raw ∈ l, strip raw ≠ "")
    (hpend : conn.pending = []) :
    (∃ c evsIn,
      process_pdf fitzOpen encode pdfPath conn k =
        RunResult.ok c
          (Event.printProcessingPdf (baseName pdfPath) l.length ::
            evsIn ++
            [Event.commitEvent, Event.printFinished (baseName pdfPath)]) ∧
      countCommits evsIn = l.length / k ∧
      countCommits (Event.printProcessingPdf (baseName pdfPath) l.length ::
          evsIn ++
          [Event.commitEvent, Event.printFinished (baseName pdfPath)]) =
        l.length / k + 1) ∧
    (∀ i c2 evs2,
      runPages encode (baseName pdfPath) l.length k 1 (l.take i) conn =
        RunResult.ok c2 evs2 → c2.pending.length ≤ k) := by
  constructor
  · obtain ⟨c, evs, h⟩ :=
      process_pdf_total fitzOpen encode pdfPath conn k l hfz henc
    obtain ⟨newRows, evsIn, hevs, hpend2, hrows, hmap, hper, hfresh, hembed,
      hcount⟩ := process_pdf_ok_spec fitzOpen encode pdfPath conn k l c evs
        hfz h
    have hcnt : countCommits evsIn = l.length / k := by
      rw [hcount]
      have hcongr : (List.range' 1 l.length).countP
          (fun p => (strip (l.getD (p - 1) "") != "") && (p % k == 0)) =
          (List.range' 1 l.length).countP (fun p => p % k == 0) :=
        List.countP_congr (fun p hp => by
          obtain ⟨hp1, hp2⟩ := List.mem_range'_1.mp hp
          have hi : p - 1 < l.length := by omega
          have hm := hne (l.getD (p - 1) "") (getD_mem hi)
          have hb : (strip (l.getD (p - 1) "") != "") = true := by
            simpa using hm
          rw [hb, Bool.true_and])
      rw [hcongr, countP_multiples]
    refine ⟨c, evsIn, by rw [← hevs]; exact h, hcnt, ?_⟩
    have hfin : countCommits [Event.commitEvent,
        Event.printFinished (baseName pdfPath)] = 1 := by
      have hf : Event.printFinished (baseName pdfPath) ≠
          Event.commitEvent := by simp
      rw [countCommits_cons_commit, countCommits_cons_ne hf]
      simp [countCommits]
    have hh : Event.printProcessingPdf (baseName pdfPath) l.length ≠
        Event.commitEvent := by simp
    rw [countCommits_append, countCommits_cons_ne hh, hcnt, hfin]
  · intro i c2 evs2 hrun2
    have hnei : ∀ raw ∈ l.take i, strip raw ≠ "" :=
      fun r hr => hne r (List.take_subset i l hr)
    have hm1 : (conn.pending.length + 1) % k = 1 % k := by rw [hpend]; rfl
    have hm2 : conn.pending.length < k := by
      rw [hpend]
      simpa using hk
    obtain ⟨c3, evs3, hrun3, hmod, hlt⟩ :=
      runPages_pending_mod encode (baseName pdfPath) l.length k henc hk
        (l.take i) 1 conn hnei hm1 hm2
    rw [hrun2] at hrun3
    simp only [RunResult.ok.injEq] at hrun3
    obtain ⟨hc, -⟩ := hrun3
    rw [← hc] at hlt
    omega

theorem commit_cadence_page_keyed_witness :
    ∃ c evsIn,
      process_pdf (fun _ => Except.ok ["a", "b", "c"]) (fun _ => Except.ok [])
          "doc.pdf" (Conn.mk [] []) 2 =
        RunResult.ok c (Event.printProcessingPdf (baseName "doc.pdf") 3 ::
          evsIn ++
          [Event.commitEvent, Event.printFinished (baseName "doc.pdf")]) ∧
      countCommits evsIn = 1 := by
  obtain ⟨⟨c, evsIn, hp, hcnt, -⟩, -⟩ :=
    commit_cadence_page_keyed (fun _ => Except.ok ["a", "b", "c"])
      (fun _ => Except.ok []) "doc.pdf" (Conn.mk [] []) 2 ["a", "b", "c"]
      rfl (fun _ => ⟨[], rfl⟩) (by decide) (by decide) rfl
  exact ⟨c, evsIn, hp, hcnt⟩

/-- C6: store initialization is idempotent: repeating it against the same
path does not error (the model is total), does not alter or duplicate any
existing row, and never destroys rows — the `Documents` table is created
only when absent. -/
theorem init_db_idempotent (d : Option DBFile) (rows : List Record) :
    initDisk (initDisk d) = initDisk d ∧
    initDisk (some (DBFile.mk (some rows))) = some (DBFile.mk (some rows)) ∧
    (init_db (some (DBFile.mk (some rows)))).committed = rows ∧
    (init_db (initDisk d)).committed = (init_db d).committed := by
  refine ⟨?_, rfl, rfl, ?_⟩
  · cases d with
    | none => rfl
    | some db =>
      cases db with
      | mk docs =>
        cases docs with
        | none => rfl
        | some rows2 => rfl
  · cases d with
    | none => rfl
    | some db =>
      cases db with
      | mk docs =>
        cases docs with
        | none => rfl
        | some rows2 => rfl

/-- C7: when no path argument is given, or when the given path does not
exist, `main` prints a diagnostic line, exits with code 1, and neither
creates, opens nor modifies the store: the disk state is returned
unchanged. -/
theorem usage_error_exits_one
    (argv : List String) (pathExists : String → Bool)
    (fitzOpen : String → Except String (List String))
    (encode : String → Except String (List Rat)) (disk : Option DBFile)
    (h : argv.length < 2 ∨ pathExists (argv.getD 1 "") = false) :
    (main argv pathExists fitzOpen encode disk).outcome = Outcome.exited 1 ∧
    (main argv pathExists fitzOpen encode disk).disk = disk ∧
    ((main argv pathExists fitzOpen encode disk).events =
        [Event.printUsage] ∨
      (main argv pathExists fitzOpen encode disk).events =
        [Event.printNotExist (argv.getD 1 "")]) := by
  by_cases hlen : argv.length < 2
  · simp [main, hlen]
  · rcases h with h | h
    · exact absurd h hlen
    · have h2 : pathExists (argv[1]?.getD "") = false := by simpa using h
      simp [main, hlen, h2]

theorem usage_error_exits_one_witness :
    (main ["prog"] (fun _ => true) (fun _ => Except.error "e")
        (fun _ => Except.error "e") none).outcome = Outcome.exited 1 ∧
    (main ["prog"] (fun _ => true) (fun _ => Except.error "e")
        (fun _ => Except.error "e") none).disk = none ∧
    ((main ["prog"] (fun _ => true) (fun _ => Except.error "e")
        (fun _ => Except.error "e") none).events = [Event.printUsage] ∨
      (main ["prog"] (fun _ => true) (fun _ => Except.error "e")
        (fun _ => Except.error "e") none).events =
        [Event.printNotExist (["prog"].getD 1 "")]) :=
  usage_error_exits_one ["prog"] (fun _ => true) (fun _ => Except.error "e")
    (fun _ => Except.error "e") none (Or.inl (by decide))

/-- C8, counterexample: on a fatal error during processing (here the model
raising on page 1) the run terminates without ever executing the store
connection close: `close()` is not on this exit path, so it does not run on
every exit path of the pipeline. -/
theorem close_skipped_on_crash :
    (main ["prog", "x.pdf"] (fun _ => true) (fun _ => Except.ok ["a"])
        (fun _ => Except.error "boom") none).outcome =
      Outcome.crashed "boom" ∧
    Event.closed ∉ (main ["prog", "x.pdf"] (fun _ => true)
        (fun _ => Except.ok ["a"]) (fun _ => Except.error "boom")
        none).events := by
  decide

/-- C8, amended: the connection close is executed exactly on the successful
completion path — a run's trace contains the close precisely when the run
exits with code 0.  Usage-error exits happen before the connection is
opened, and a fatal processing error propagates past the close call,
abandoning the connection. -/
theorem close_iff_clean_finish
    (argv : List String) (pathExists : String → Bool)
    (fitzOpen : String → Except String (List String))
    (encode : String → Except String (List Rat)) (disk : Option DBFile) :
    Event.closed ∈ (main argv pathExists fitzOpen encode disk).events ↔
      (main argv pathExists fitzOpen encode disk).outcome =
        Outcome.exited 0 := by
  by_cases hlen : argv.length < 2
  · simp [main, hlen]
  · by_cases hex : pathExists (argv.getD 1 "") = true
    · have hex2 : pathExists (argv[1]?.getD "") = true := by simpa using hex
      have hnc := closed_not_in_process_pdf fitzOpen encode
        (argv[1]?.getD "") (init_db disk) 50
      cases hp : process_pdf fitzOpen encode (argv[1]?.getD "")
          (init_db disk) 50 with
      | ok c evs =>
        rw [hp] at hnc
        simp [main, hlen, hex2, hp, RunResult.events]
      | err m c evs =>
        rw [hp] at hnc
        simp only [RunResult.events] at hnc
        simp [main, hlen, hex2, hp, hnc]
    · have hex2 : pathExists (argv[1]?.getD "") = false := by
        simp only [List.getD_eq_getElem?_getD] at hex
        simpa using hex
      simp [main, hlen, hex2]

/-- C9: every run that completes PDF processing exits with code 0; pages
with no embeddable text are merely skipped, so even an all-blank document is
not an error (the witness processes a blank page with an embedder that would
fail if it were ever invoked). -/
theorem completed_run_exits_zero
    (argv : List String) (pathExists : String → Bool)
    (fitzOpen : String → Except String (List String))
    (encode : String → Except String (List Rat)) (disk : Option DBFile)
    (c : Conn) (evs : List Event)
    (hlen : 2 ≤ argv.length)
    (hex : pathExists (argv.getD 1 "") = true)
    (h : process_pdf fitzOpen encode (argv.getD 1 "") (init_db disk) 50 =
      RunResult.ok c evs) :
    (main argv pathExists fitzOpen encode disk).outcome =
      Outcome.exited 0 := by
  have h2 : process_pdf fitzOpen encode (argv[1]?.getD "") (init_db disk)
      50 = RunResult.ok c evs := by simpa using h
  have hex2 : pathExists (argv[1]?.getD "") = true := by simpa using hex
  have hlen2 : ¬ argv.length < 2 := by omega
  simp [main, hlen2, hex2, h2]

theorem completed_run_exits_zero_witness :
    (main ["prog", "x.pdf"] (fun _ => true) (fun _ => Except.ok [""])
        (fun _ => Except.error "boom") none).outcome = Outcome.exited 0 :=
  completed_run_exits_zero ["prog", "x.pdf"] (fun _ => true)
    (fun _ => Except.ok [""]) (fun _ => Except.error "boom") none
    (Conn.mk [] [])
    [Event.printProcessingPdf "x.pdf" 1, Event.printSkip 1,
      Event.commitEvent, Event.printFinished "x.pdf"]
    (by decide) rfl rfl

end PdfEmbed
